import Mathlib

/-!
Verification of the step-challenge tracker (`src/app.py`).

Dates are modelled as natural numbers counting days from the fixed epoch
2025-06-30, which is the Monday opening ISO week 27 of 2025.  Thus day 1 is
2025-07-01 (`ALLOWED_START_DATE`) and day 31 is 2025-07-31
(`ALLOWED_END_DATE`), and for every day `d` of 2025 on or after the epoch the
ISO week number returned by pandas `isocalendar().week` is `27 + d / 7`.

Step counts are natural numbers (the UI's `number_input` has `min_value=0`).
The per-day share `row['steps'] / len(dates)` computed during expansion is a
float in Python; it is modelled as a rational number, and the subsequent
`Series.round` (numpy round-half-to-even) as `roundHalfEven : ℚ → ℤ`.
-/

/-- A stored row of `step_data.csv`: `(name, start_date, end_date, steps)`. -/
structure Entry where
  name : String
  start_date : Nat
  end_date : Nat
  steps : Nat
deriving Repr, DecidableEq

/-- One element of the `exploded` list built in lines 93–101 of `app.py`:
a participant name, a single calendar day, and the unrounded per-day share
`row['steps'] / len(dates)`. -/
structure DayRecord where
  name : String
  date : Nat
  steps : ℚ
deriving Repr, DecidableEq

/-- `TEAM_GOAL = 500_000` (line 7). -/
def TEAM_GOAL : Nat := 500000

/-- `ALLOWED_START_DATE = datetime.date(2025, 7, 1)` (line 36), as a day
offset from the 2025-06-30 epoch. -/
def ALLOWED_START_DATE : Nat := 1

/-- `ALLOWED_END_DATE = datetime.date(2025, 7, 31)` (line 37). -/
def ALLOWED_END_DATE : Nat := 31

/-- `date_ranges_overlap` (lines 28–29):
`max(start1, start2) <= min(end1, end2)`. -/
def date_ranges_overlap (start1 end1 start2 end2 : Nat) : Bool :=
  decide (max start1 start2 ≤ min end1 end2)

/-- `explode_dates` (lines 32–33): `pd.date_range(start_date, end_date)`,
the list of days from `start_date` to `end_date` inclusive (empty when
`start_date > end_date`). -/
def explode_dates (row : Entry) : List Nat :=
  (List.range (row.end_date + 1 - row.start_date)).map (fun i => row.start_date + i)

/-- The expansion loop (lines 94–101): one record per day of the range, each
carrying the unrounded share `row['steps'] / len(dates)`. -/
def explode (row : Entry) : List DayRecord :=
  let dates := explode_dates row
  dates.map (fun d => ⟨row.name, d, (row.steps : ℚ) / (dates.length : ℚ)⟩)

/-- The whole `exploded` list (lines 93–101): expansion of every stored row. -/
def exploded (df : List Entry) : List DayRecord :=
  df.flatMap explode

/-- numpy/pandas `Series.round()` on a scalar (line 106): round to the
nearest integer, ties to the even integer. -/
def roundHalfEven (q : ℚ) : ℤ :=
  if q - (⌊q⌋ : ℚ) < 1/2 then ⌊q⌋
  else if 1/2 < q - (⌊q⌋ : ℚ) then ⌊q⌋ + 1
  else if ⌊q⌋ % 2 = 0 then ⌊q⌋ else ⌊q⌋ + 1

/-- The rounded integer steps of a day record,
`exploded_df['steps'].round().astype(int)` (line 106). -/
def roundedSteps (r : DayRecord) : ℤ :=
  roundHalfEven r.steps

/-- `exploded_df['date'].dt.isocalendar().week` (line 105), valid for the
days of 2025 on or after the 2025-06-30 epoch (Monday of ISO week 27). -/
def isoWeek (d : Nat) : Nat :=
  27 + d / 7

/-- Verdict of a submission (lines 70–88): the two `st.error` branches and
the accepting branch. -/
inductive SubmitResult where
  | invalidRange
  | overlapConflict
  | accepted
deriving Repr, DecidableEq

/-- The submission handler (lines 70–88): reject when `start_date > end_date`;
otherwise reject when the candidate range overlaps any stored entry whose
name matches case-insensitively; otherwise append the new row. -/
def submit (df : List Entry) (name : String) (start_date end_date steps : Nat) :
    SubmitResult × List Entry :=
  if start_date > end_date then
    (SubmitResult.invalidRange, df)
  else
    let user_df := df.filter (fun r => r.name.toLower == name.toLower)
    let overlap_found := user_df.any
      (fun r => date_ranges_overlap start_date end_date r.start_date r.end_date)
    if overlap_found then
      (SubmitResult.overlapConflict, df)
    else
      (SubmitResult.accepted, df ++ [⟨name, start_date, end_date, steps⟩])

/-- Monthly total of one participant: `exploded_df.groupby('name')['steps'].sum()`
(line 129) evaluated at the participant's (raw) name. -/
def monthlyTotal (recs : List DayRecord) (p : String) : ℤ :=
  ((recs.filter (fun r => r.name == p)).map roundedSteps).sum

/-- Weekly-leaderboard total of one participant for one ISO week:
lines 113–114, the `week == selected_week` filter followed by
`groupby('name')['steps'].sum()`, evaluated at the participant's name. -/
def weeklyTotal (recs : List DayRecord) (p : String) (w : Nat) : ℤ :=
  ((recs.filter (fun r => r.name == p && isoWeek r.date == w)).map roundedSteps).sum

/-- `total_steps = exploded_df['steps'].sum()` (line 133). -/
def total_steps (recs : List DayRecord) : ℤ :=
  (recs.map roundedSteps).sum

/-- Team progress `(current, goal)` (line 134): the current total against
`TEAM_GOAL`. -/
def get_team_progress (recs : List DayRecord) : ℤ × Nat :=
  (total_steps recs, TEAM_GOAL)

/-- Insertion of a key into a chronologically sorted list of days. -/
def insertSorted (d : Nat) : List Nat → List Nat
  | [] => [d]
  | x :: xs => if d ≤ x then d :: x :: xs else x :: insertSorted d xs

/-- The sorted distinct group keys produced by pandas `groupby('date')`. -/
def sortedDates (recs : List DayRecord) : List Nat :=
  ((recs.map (fun r => r.date)).dedup).foldr insertSorted []

/-- `daily_totals = exploded_df.groupby('date')['steps'].sum()` (line 138):
one `(date, total)` pair per distinct day, in chronological order. -/
def get_daily_totals (recs : List DayRecord) : List (Nat × ℤ) :=
  (sortedDates recs).map
    (fun d => (d, ((recs.filter (fun r => r.date == d)).map roundedSteps).sum))

/-- The no-overlap store invariant: any two stored entries whose names match
case-insensitively have non-overlapping inclusive date ranges. -/
def NoOverlapInv (df : List Entry) : Prop :=
  df.Pairwise (fun a b => a.name.toLower = b.name.toLower →
    ¬ (max a.start_date b.start_date ≤ min a.end_date b.end_date))

/-- Number of days of an entry's inclusive range (`len(dates)` in the
expansion loop) when `start_date ≤ end_date`. -/
def dayCount (row : Entry) : Nat :=
  row.end_date + 1 - row.start_date

/-- C5: the overlap predicate on two inclusive ranges holds iff
`max(s1,s2) ≤ min(e1,e2)`; in particular two valid ranges merely touching at
an endpoint (the first ends the day the second starts) count as overlapping. -/
theorem overlap_iff_and_touching (s1 e1 s2 e2 : Nat) :
    (date_ranges_overlap s1 e1 s2 e2 = true ↔ max s1 s2 ≤ min e1 e2) ∧
    (s1 ≤ e1 → s2 ≤ e2 → e1 = s2 → date_ranges_overlap s1 e1 s2 e2 = true) := by
  constructor
  · simp [date_ranges_overlap]
  · intro h1 h2 h3
    simp only [date_ranges_overlap, decide_eq_true_eq]
    subst h3
    omega

/-- Witness for C5 at a concrete touching pair: `[3,5]` and `[5,9]` overlap. -/
theorem overlap_iff_and_touching_witness :
    date_ranges_overlap 3 5 5 9 = true :=
  (overlap_iff_and_touching 3 5 5 9).2 (by decide) (by decide) rfl

/-- C8: over an empty store the aggregation views are empty: `get_daily_totals`
returns the empty sequence and `get_team_progress` returns `(0, 500000)`. -/
theorem empty_store_views :
    get_daily_totals (exploded []) = [] ∧
    get_team_progress (exploded []) = (0, TEAM_GOAL) ∧
    TEAM_GOAL = 500000 := by
  refine ⟨rfl, rfl, rfl⟩

/-- C2: for an entry with `start_date ≤ end_date`, expansion yields exactly
`(end_date - start_date) + 1` records, one per day of the range in order, each
carrying the share `steps / day_count`; a single-day entry yields exactly one
record carrying the full `steps`. -/
theorem expansion_shape (e : Entry) (h : e.start_date ≤ e.end_date) :
    (explode e).length = e.end_date - e.start_date + 1 ∧
    (explode e).map (fun r => r.date) =
      (List.range (e.end_date - e.start_date + 1)).map (fun i => e.start_date + i) ∧
    (∀ r ∈ explode e, r.name = e.name ∧
      r.steps = (e.steps : ℚ) / ((e.end_date - e.start_date + 1 : Nat) : ℚ)) ∧
    (e.start_date = e.end_date → explode e = [⟨e.name, e.start_date, (e.steps : ℚ)⟩]) := by
  have hd : e.end_date + 1 - e.start_date = e.end_date - e.start_date + 1 := by omega
  refine ⟨?_, ?_, ?_, ?_⟩
  · simp [explode, explode_dates, hd]
  · simp [explode, explode_dates, hd, List.map_map, Function.comp]
  · intro r hr
    simp only [explode, explode_dates, List.mem_map, List.mem_range] at hr
    obtain ⟨i, _, rfl⟩ := hr
    simp [explode_dates, hd]
  · intro hone
    have h1 : e.end_date + 1 - e.start_date = 1 := by omega
    simp [explode, explode_dates, h1, List.range_succ, hone]

/-- Witness for C2: a single-day entry expands to one full-steps record. -/
theorem expansion_shape_witness :
    explode ⟨"a", 1, 1, 100⟩ = [⟨"a", 1, (100 : ℚ)⟩] :=
  (expansion_shape ⟨"a", 1, 1, 100⟩ (by decide)).2.2.2 rfl

/-- C6: a submission is rejected with `InvalidRange` exactly when
`start_date > end_date`; such a rejection leaves the store unchanged; and
every entry of the post-submission store was already stored or satisfies
`start_date ≤ end_date`. -/
theorem invalid_range_rejection (df : List Entry) (n : String) (s e k : Nat) :
    ((submit df n s e k).1 = SubmitResult.invalidRange ↔ s > e) ∧
    (s > e → (submit df n s e k).2 = df) ∧
    (∀ ent ∈ (submit df n s e k).2, ent ∈ df ∨ ent.start_date ≤ ent.end_date) := by
  unfold submit
  by_cases h1 : s > e
  · rw [if_pos h1]
    exact ⟨⟨fun _ => h1, fun _ => rfl⟩, fun _ => rfl, fun ent h => Or.inl h⟩
  · rw [if_neg h1]
    dsimp only
    by_cases h2 : (df.filter (fun r => r.name.toLower == n.toLower)).any
        (fun r => date_ranges_overlap s e r.start_date r.end_date) = true
    · rw [if_pos h2]
      exact ⟨⟨fun heq => SubmitResult.noConfusion heq, fun hgt => absurd hgt h1⟩,
        fun _ => rfl, fun ent h => Or.inl h⟩
    · rw [if_neg h2]
      refine ⟨⟨fun heq => SubmitResult.noConfusion heq, fun hgt => absurd hgt h1⟩,
        fun hgt => absurd hgt h1, ?_⟩
      intro ent hent
      rcases List.mem_append.mp hent with hin | hnew
      · exact Or.inl hin
      · simp only [List.mem_singleton] at hnew
        subst hnew
        exact Or.inr (Nat.le_of_not_lt h1)

/-- Witness for C6: submitting the inverted range `[5,3]` is rejected as
`InvalidRange` and the empty store stays empty. -/
theorem invalid_range_rejection_witness :
    (submit [] "a" 5 3 100).1 = SubmitResult.invalidRange ∧
    (submit [] "a" 5 3 100).2 = [] :=
  ⟨(invalid_range_rejection [] "a" 5 3 100).1.mpr (by decide),
   (invalid_range_rejection [] "a" 5 3 100).2.1 (by decide)⟩

/-- C9: an accepted submission produces exactly the prior store with the
single new entry appended at the end. -/
theorem accepted_appends (df : List Entry) (n : String) (s e k : Nat)
    (h : (submit df n s e k).1 = SubmitResult.accepted) :
    (submit df n s e k).2 = df ++ [⟨n, s, e, k⟩] := by
  unfold submit at h ⊢
  by_cases h1 : s > e
  · simp [h1] at h
  · simp only [h1, if_false] at h ⊢
    by_cases h2 : (df.filter (fun r => r.name.toLower == n.toLower)).any
        (fun r => date_ranges_overlap s e r.start_date r.end_date) = true
    · simp [h2] at h
    · simp only [Bool.not_eq_true] at h2
      simp [h2]

/-- Witness for C9 on a concrete store and entry. -/
theorem accepted_appends_witness :
    (submit [] "a" 3 4 100).2 = [] ++ [⟨"a", 3, 4, 100⟩] :=
  accepted_appends [] "a" 3 4 100 rfl

/-- C7: when the submitted dates respect the `date_input` widget bounds
(`ALLOWED_START_DATE ≤ d ≤ ALLOWED_END_DATE` for both dates, lines 62–66),
every entry of the post-submission store was already stored or lies entirely
within the fixed July 2025 window. -/
theorem window_preserved (df : List Entry) (n : String) (s e k : Nat)
    (hs1 : ALLOWED_START_DATE ≤ s) (hs2 : s ≤ ALLOWED_END_DATE)
    (he1 : ALLOWED_START_DATE ≤ e) (he2 : e ≤ ALLOWED_END_DATE) :
    ∀ ent ∈ (submit df n s e k).2, ent ∈ df ∨
      (ALLOWED_START_DATE ≤ ent.start_date ∧ ent.start_date ≤ ALLOWED_END_DATE ∧
       ALLOWED_START_DATE ≤ ent.end_date ∧ ent.end_date ≤ ALLOWED_END_DATE) := by
  intro ent hent
  unfold submit at hent
  by_cases h1 : s > e
  · simp only [h1, if_true] at hent
    exact Or.inl hent
  · simp only [h1, if_false] at hent
    by_cases h2 : (df.filter (fun r => r.name.toLower == n.toLower)).any
        (fun r => date_ranges_overlap s e r.start_date r.end_date) = true
    · simp only [h2, if_true] at hent
      exact Or.inl hent
    · simp only [Bool.not_eq_true] at h2
      simp only [h2, Bool.false_eq_true, if_false] at hent
      rcases List.mem_append.mp hent with hin | hnew
      · exact Or.inl hin
      · simp only [List.mem_singleton] at hnew
        subst hnew
        exact Or.inr ⟨hs1, hs2, he1, he2⟩

/-- Witness for C7: a submission of `[1,31]` into the empty store yields a
store whose single entry lies within the window. -/
theorem window_preserved_witness :
    (⟨"a", 1, 31, 100⟩ : Entry) ∈ (submit [] "a" 1 31 100).2 ∧
    ((⟨"a", 1, 31, 100⟩ : Entry) ∈ ([] : List Entry) ∨
      (ALLOWED_START_DATE ≤ 1 ∧ 1 ≤ ALLOWED_END_DATE ∧
       ALLOWED_START_DATE ≤ 31 ∧ 31 ≤ ALLOWED_END_DATE)) :=
  ⟨by decide,
   window_preserved [] "a" 1 31 100 (by decide) (by decide) (by decide) (by decide)
     ⟨"a", 1, 31, 100⟩ (by decide)⟩

/-- C1: the per-participant no-overlap invariant (case-insensitive name
matching, inclusive interval intersection) is preserved by every submission:
the overlap check rejects any candidate that would violate it. -/
theorem no_overlap_preserved (df : List Entry) (n : String) (s e k : Nat)
    (h : NoOverlapInv df) : NoOverlapInv (submit df n s e k).2 := by
  unfold submit
  by_cases h1 : s > e
  · simpa [h1] using h
  · simp only [h1, if_false]
    by_cases h2 : (df.filter (fun r => r.name.toLower == n.toLower)).any
        (fun r => date_ranges_overlap s e r.start_date r.end_date) = true
    · simpa [h2] using h
    · simp only [Bool.not_eq_true] at h2
      simp only [h2, Bool.false_eq_true, if_false]
      rw [NoOverlapInv, List.pairwise_append]
      refine ⟨h, List.pairwise_singleton _ _, ?_⟩
      intro a ha b hb
      simp only [List.mem_singleton] at hb
      subst hb
      intro hname hover
      have hmem : a ∈ df.filter (fun r => r.name.toLower == n.toLower) :=
        List.mem_filter.mpr ⟨ha, by simp [hname]⟩
      have hover' : max a.start_date s ≤ min a.end_date e := hover
      have hpred : date_ranges_overlap s e a.start_date a.end_date = true := by
        simp only [date_ranges_overlap, decide_eq_true_eq]
        omega
      have : (df.filter (fun r => r.name.toLower == n.toLower)).any
          (fun r => date_ranges_overlap s e r.start_date r.end_date) = true :=
        List.any_eq_true.mpr ⟨a, hmem, hpred⟩
      rw [h2] at this
      exact Bool.false_ne_true this

/-- Witness for C1: the invariant holds after submitting into a one-entry
store of the same participant with a disjoint range. -/
theorem no_overlap_preserved_witness :
    NoOverlapInv (submit [⟨"Alice", 1, 2, 100⟩] "alice" 4 5 50).2 :=
  no_overlap_preserved [⟨"Alice", 1, 2, 100⟩] "alice" 4 5 50
    (List.pairwise_singleton _ _)

/-- Rounding an integer is the identity. -/
theorem roundHalfEven_intCast (m : ℤ) : roundHalfEven (m : ℚ) = m := by
  unfold roundHalfEven
  rw [Int.floor_intCast]
  norm_num

/-- Round-half-to-even lands within one half of its argument. -/
theorem abs_roundHalfEven_sub_le (q : ℚ) : |(roundHalfEven q : ℚ) - q| ≤ 1/2 := by
  unfold roundHalfEven
  have h0 : (⌊q⌋ : ℚ) ≤ q := Int.floor_le q
  have h1 : q < (⌊q⌋ : ℚ) + 1 := Int.lt_floor_add_one q
  by_cases ha : q - (⌊q⌋ : ℚ) < 1/2
  · rw [if_pos ha, abs_le]
    constructor <;> linarith
  · rw [if_neg ha]
    by_cases hb : 1/2 < q - (⌊q⌋ : ℚ)
    · rw [if_pos hb, abs_le]
      push_cast
      constructor <;> linarith
    · rw [if_neg hb]
      have heq : q - (⌊q⌋ : ℚ) = 1/2 := le_antisymm (not_lt.mp hb) (not_lt.mp ha)
      by_cases hc : ⌊q⌋ % 2 = 0
      · rw [if_pos hc, abs_le]
        constructor <;> linarith
      · rw [if_neg hc, abs_le]
        push_cast
        constructor <;> linarith

/-- The list of rounded per-day values of one entry is a constant list:
every day of the range carries `roundHalfEven (steps / day_count)`. -/
theorem map_roundedSteps_explode (e : Entry) :
    (explode e).map roundedSteps =
      List.replicate (dayCount e) (roundHalfEven ((e.steps : ℚ) / (dayCount e : ℚ))) := by
  have hlen : (explode_dates e).length = dayCount e := by
    simp [explode_dates, dayCount]
  unfold explode roundedSteps
  rw [List.map_map]
  have hfun : ((fun r : DayRecord => roundHalfEven r.steps) ∘
      (fun d => (⟨e.name, d, (e.steps : ℚ) / ((explode_dates e).length : ℚ)⟩ : DayRecord))) =
      fun _ => roundHalfEven ((e.steps : ℚ) / (dayCount e : ℚ)) := by
    funext d
    simp [Function.comp, hlen]
  rw [hfun, List.map_const', hlen]

/-- C3: for an entry with a valid range, the per-day rounded values sum to
within `day_count / 2` of the original `steps`, and to exactly `steps` when
`day_count` divides `steps`. -/
theorem rounding_drift (e : Entry) (h : e.start_date ≤ e.end_date) :
    |((((explode e).map roundedSteps).sum : ℤ) : ℚ) - (e.steps : ℚ)| ≤ (dayCount e : ℚ) / 2 ∧
    (dayCount e ∣ e.steps → ((explode e).map roundedSteps).sum = (e.steps : ℤ)) := by
  have hDpos : 0 < dayCount e := by
    unfold dayCount
    omega
  have hDQ : (0 : ℚ) < (dayCount e : ℚ) := by exact_mod_cast hDpos
  have hsum : ((explode e).map roundedSteps).sum =
      (dayCount e : ℤ) * roundHalfEven ((e.steps : ℚ) / (dayCount e : ℚ)) := by
    rw [map_roundedSteps_explode, List.sum_replicate, nsmul_eq_mul]
  constructor
  · rw [hsum]
    have hq : (dayCount e : ℚ) * ((e.steps : ℚ) / (dayCount e : ℚ)) = (e.steps : ℚ) := by
      field_simp
    have habs := abs_roundHalfEven_sub_le ((e.steps : ℚ) / (dayCount e : ℚ))
    calc |(((dayCount e : ℤ) * roundHalfEven ((e.steps : ℚ) / (dayCount e : ℚ)) : ℤ) : ℚ) -
            (e.steps : ℚ)|
        = |(dayCount e : ℚ) *
            ((roundHalfEven ((e.steps : ℚ) / (dayCount e : ℚ)) : ℚ) -
              (e.steps : ℚ) / (dayCount e : ℚ))| := by
          rw [mul_sub, hq]
          push_cast
          ring_nf
      _ = (dayCount e : ℚ) *
            |(roundHalfEven ((e.steps : ℚ) / (dayCount e : ℚ)) : ℚ) -
              (e.steps : ℚ) / (dayCount e : ℚ)| := by
          rw [abs_mul, abs_of_pos hDQ]
      _ ≤ (dayCount e : ℚ) * (1/2) := by
          exact mul_le_mul_of_nonneg_left habs (le_of_lt hDQ)
      _ = (dayCount e : ℚ) / 2 := by ring
  · intro hdvd
    obtain ⟨m, hm⟩ := hdvd
    have hqm : (e.steps : ℚ) / (dayCount e : ℚ) = ((m : ℤ) : ℚ) := by
      rw [hm]
      push_cast
      field_simp
    rw [hsum, hqm, roundHalfEven_intCast, hm]
    push_cast
    ring

/-- Witness for C3 at the 3-day 300-step entry: the rounded per-day values
sum to exactly 300. -/
theorem rounding_drift_witness :
    ((explode ⟨"a", 1, 3, 300⟩).map roundedSteps).sum = ((300 : Nat) : ℤ) :=
  (rounding_drift ⟨"a", 1, 3, 300⟩ (by decide)).2 ⟨100, rfl⟩

/-- C10: the per-day rounding applied at aggregation time is
round-half-to-even: an expanded day record whose unrounded share is exactly
halfway between two integers rounds to the even one of the two. -/
theorem halfway_rounds_to_even (e : Entry) (r : DayRecord) (hr : r ∈ explode e)
    (k : ℤ) (hk : r.steps = (k : ℚ) + 1/2) :
    roundedSteps r = (if k % 2 = 0 then k else k + 1) ∧ roundedSteps r % 2 = 0 := by
  have hfloor : ⌊r.steps⌋ = k := by
    rw [hk]
    rw [Int.floor_int_add]
    have : ⌊(1/2 : ℚ)⌋ = 0 := by
      rw [Int.floor_eq_zero_iff]
      constructor <;> norm_num
    rw [this, add_zero]
  have hfrac : r.steps - (⌊r.steps⌋ : ℚ) = 1/2 := by
    rw [hfloor, hk]
    ring
  have hval : roundedSteps r = (if k % 2 = 0 then k else k + 1) := by
    unfold roundedSteps roundHalfEven
    rw [hfrac, hfloor]
    norm_num
  refine ⟨hval, ?_⟩
  rw [hval]
  by_cases hc : k % 2 = 0
  · rw [if_pos hc]
    exact hc
  · rw [if_neg hc]
    omega

/-- Witness for C10: the 2-day 5-step entry expands to records of share
`5/2`, each of which rounds to `2` (the even neighbour), not `3`. -/
theorem halfway_rounds_to_even_witness :
    (⟨"a", 1, (5 : ℚ)/2⟩ : DayRecord) ∈ explode ⟨"a", 1, 2, 5⟩ ∧
    roundedSteps ⟨"a", 1, (5 : ℚ)/2⟩ = 2 := by
  have hmem : (⟨"a", 1, (5 : ℚ)/2⟩ : DayRecord) ∈ explode ⟨"a", 1, 2, 5⟩ := by
    simp only [explode, explode_dates]
    norm_num [List.range_succ]
  have h := halfway_rounds_to_even ⟨"a", 1, 2, 5⟩ ⟨"a", 1, (5 : ℚ)/2⟩ hmem 2 (by norm_num)
  exact ⟨hmem, by simpa using h.1⟩

/-- C4: provided every expanded record's date lies in July 2025 (days 1–31
of the epoch), each participant's monthly-leaderboard total is the sum of
that participant's weekly-leaderboard totals over the ISO weeks 27–31
touching the month: every record falls in exactly one ISO week. -/
theorem monthly_eq_sum_weekly (recs : List DayRecord) (p : String)
    (h : ∀ r ∈ recs, 1 ≤ r.date ∧ r.date ≤ 31) :
    monthlyTotal recs p = ∑ w ∈ Finset.Icc 27 31, weeklyTotal recs p w := by
  induction recs with
  | nil => simp [monthlyTotal, weeklyTotal]
  | cons r recs ih =>
    have hr := h r (List.mem_cons_self r recs)
    have hrest : ∀ x ∈ recs, 1 ≤ x.date ∧ x.date ≤ 31 :=
      fun x hx => h x (List.mem_cons_of_mem r hx)
    have hweek : isoWeek r.date ∈ Finset.Icc 27 31 := by
      simp only [Finset.mem_Icc, isoWeek]
      omega
    by_cases hname : (r.name == p) = true
    · have hm : monthlyTotal (r :: recs) p = roundedSteps r + monthlyTotal recs p := by
        simp [monthlyTotal, List.filter_cons, hname]
      have hw : ∀ w, weeklyTotal (r :: recs) p w =
          (if isoWeek r.date = w then roundedSteps r else 0) + weeklyTotal recs p w := by
        intro w
        by_cases hwq : isoWeek r.date = w
        · simp [weeklyTotal, List.filter_cons, hname, hwq]
        · simp [weeklyTotal, List.filter_cons, hname, hwq]
      have hsplit : ∑ w ∈ Finset.Icc 27 31, weeklyTotal (r :: recs) p w =
          roundedSteps r + ∑ w ∈ Finset.Icc 27 31, weeklyTotal recs p w := by
        rw [Finset.sum_congr rfl (fun w _ => hw w), Finset.sum_add_distrib,
          Finset.sum_ite_eq, if_pos hweek]
      rw [hm, ih hrest, hsplit]
    · have hm : monthlyTotal (r :: recs) p = monthlyTotal recs p := by
        simp [monthlyTotal, List.filter_cons, hname]
      have hw : ∀ w, weeklyTotal (r :: recs) p w = weeklyTotal recs p w := by
        intro w
        simp [weeklyTotal, List.filter_cons, hname]
      rw [hm, ih hrest, Finset.sum_congr rfl (fun w _ => hw w)]

/-- Witness for C4 on a concrete two-week dataset for participant `a`. -/
theorem monthly_eq_sum_weekly_witness :
    monthlyTotal [⟨"a", 1, (100 : ℚ)⟩, ⟨"a", 8, (50 : ℚ)⟩] "a" =
      ∑ w ∈ Finset.Icc 27 31, weeklyTotal [⟨"a", 1, (100 : ℚ)⟩, ⟨"a", 8, (50 : ℚ)⟩] "a" w :=
  monthly_eq_sum_weekly [⟨"a", 1, (100 : ℚ)⟩, ⟨"a", 8, (50 : ℚ)⟩] "a" (by decide)
